import Mathlib

/-!
Verification of the pdf_data_pipeline repository.

Shallow embedding of the parts of the code the claims are about:
  * src/chunking.py   — chunk_markdown_files (empty-chunk filtering, warnings)
  * src/embedding.py  — metadata derivation, batch insertion into the store
  * src/chat.py       — get_context, get_chat_response, the chat turn flow,
                        and the presentation layer citation re-parse

Python strings are modelled as `List Char` (named `Str`), Python `None` as
`Option`, Python exceptions of external calls as `Except` values supplied as
inputs.  External collaborators (the docling HybridChunker, the LanceDB store,
the OpenAI client) are not part of the repository source; where a claim
depends on their behaviour the corresponding definition is modelled from the
spec and says so in its doc comment.
-/

set_option maxHeartbeats 1000000

set_option linter.unusedVariables false

/-- Python strings, modelled as lists of characters. -/
abbrev Str := List Char

/-- The whitespace characters recognised by Python str.strip(). -/
def isWs (c : Char) : Bool :=
  c = ' ' || c = '\t' || c = '\n' || c = '\r' || c = '\x0b' || c = '\x0c'

/-- Python str.strip(): remove leading and trailing whitespace. -/
def pyStrip (s : Str) : Str :=
  ((s.dropWhile isWs).reverse.dropWhile isWs).reverse

/-- Decimal rendering of a natural number (Python str(int)), written with
explicit fuel so that the recursion is structural and kernel-reducible. -/
def natReprF : Nat → Nat → Str
  | 0, _ => []
  | fuel + 1, n =>
    if n < 10 then [Nat.digitChar n]
    else natReprF fuel (n / 10) ++ [Nat.digitChar (n % 10)]

/-- Decimal rendering of a natural number, as used for page numbers. -/
def natRepr (n : Nat) : Str := natReprF (n + 1) n

/-- Reading a decimal digit string back into a number (the natural inverse of
`natRepr`, used by the spec side of the citation round-trip contract). -/
def parseNatStr (s : Str) : Nat :=
  s.foldl (fun a c => a * 10 + (c.toNat - 48)) 0

/-- Python sep.join(xs). -/
def joinSep (sep : Str) : List Str → Str
  | [] => []
  | [s] => s
  | s :: s2 :: rest => s ++ sep ++ joinSep sep (s2 :: rest)

/-- Worker for Python str.split(sep) with non-empty separator `c0 :: sep1`.
`acc` holds the characters of the current field in reverse; the fuel makes the
recursion structural (adequate fuel is supplied by `pySplit`). -/
def pySplitF (c0 : Char) (sep1 : Str) : Nat → Str → Str → List Str
  | 0, acc, s => [acc.reverse ++ s]
  | fuel + 1, acc, s =>
    match s with
    | [] => [acc.reverse]
    | c :: rest =>
      if (c0 :: sep1).isPrefixOf (c :: rest) then
        acc.reverse :: pySplitF c0 sep1 fuel [] (rest.drop sep1.length)
      else pySplitF c0 sep1 fuel (c :: acc) rest

/-- Python s.split(sep), for a non-empty separator (all uses in the source
split on a fixed non-empty literal). -/
def pySplit (sep s : Str) : List Str :=
  match sep with
  | [] => [s]
  | c0 :: sep1 => pySplitF c0 sep1 (s.length + 1) [] s

/-- Python `sep in s` (substring containment). -/
def containsSub (sep : Str) : Str → Bool
  | [] => sep.isPrefixOf []
  | c :: rest => sep.isPrefixOf (c :: rest) || containsSub sep rest

/-- Lookup in a Python dict built from a list of key/value pairs by
comprehension: a later binding of the same key wins. -/
def dictGet (kvs : List (Str × Str)) (key : Str) : Option Str :=
  match kvs.reverse.find? (fun kv => kv.1 == key) with
  | some kv => some kv.2
  | none => none

/-! ## Data model (src/embedding.py, docling chunk shape) -/

/-- A provenance record of a content item (docling `prov` entry): the page the
text span comes from. -/
structure Prov where
  page_no : Nat
deriving DecidableEq, Repr

/-- A content item referenced by a chunk (docling `doc_items` entry). -/
structure DocItem where
  prov : List Prov
deriving DecidableEq, Repr

/-- Document origin carried by a chunk (docling `meta.origin`). -/
structure Origin where
  filename : Option Str
deriving DecidableEq, Repr

/-- The metadata attached to a docling chunk (`chunk.meta`). -/
structure ChunkMeta where
  origin : Origin
  doc_items : List DocItem
  headings : List Str
deriving DecidableEq, Repr

/-- A chunk as produced by the docling HybridChunker: `text` is `chunk.text`
(inserted into the store by src/embedding.py), `serialized` is
`chunker.serialize(chunk)` (the enriched text src/chunking.py filters on). -/
structure Chunk where
  text : Str
  serialized : Str
  meta : ChunkMeta
deriving DecidableEq, Repr

/-- ChunkMetadata of src/embedding.py lines 63-70: filename, page_numbers,
title, each nullable. -/
structure ChunkMetadata where
  filename : Option Str
  page_numbers : Option (List Nat)
  title : Option Str
deriving DecidableEq, Repr

/-- The union of page numbers over the provenance records of a chunk's
doc_items, in traversal order, duplicates included (the generator expression
inside `sorted(set(...))` of src/embedding.py lines 89-95). -/
def pagesUnion (c : Chunk) : List Nat :=
  c.meta.doc_items.flatMap (fun it => it.prov.map Prov.page_no)

/-- Metadata derivation of src/embedding.py lines 87-97:
`sorted(set(pages)) or None` becomes sort-of-dedup with the empty list mapped
to `none`; `title` is `headings[0] if headings else None`. -/
def deriveMetadata (c : Chunk) : ChunkMetadata :=
  let ps := List.insertionSort (fun a b => a ≤ b) (pagesUnion c).dedup
  { filename := c.meta.origin.filename
    page_numbers := if ps.isEmpty then none else some ps
    title := c.meta.headings.head? }

/-! ## Chunking pipeline (src/chunking.py lines 84-115) -/

/-- One extracted JSON file together with the chunks the external HybridChunker
produced for it (the chunker itself is the docling library, outside the
repository source; its output is taken as input here). -/
structure RawFile where
  name : Str
  chunks : List Chunk
deriving DecidableEq, Repr

/-- The chunks of one file that survive the emptiness filter of
src/chunking.py lines 87-94: a chunk is kept iff its serialized text strips to
something non-empty. -/
def keptChunks (f : RawFile) : List Chunk :=
  f.chunks.filter (fun c => !(pyStrip c.serialized).isEmpty)

/-- The value of `empty_chunk_count` for one file: the number of chunks whose
serialized text strips to empty (src/chunking.py lines 90-92). -/
def droppedCount (f : RawFile) : Nat :=
  (f.chunks.filter (fun c => (pyStrip c.serialized).isEmpty)).length

/-- The warning log entries of one file: src/chunking.py lines 108-109 print a
single warning carrying the count, and only when the count is positive. -/
def fileWarnings (f : RawFile) : List (Str × Nat) :=
  if droppedCount f > 0 then [(f.name, droppedCount f)] else []

/-- chunk_markdown_files (src/chunking.py lines 42-115): per file, keep the
non-empty chunks in order and emit at most one warning; concatenate over the
files in order.  Returns (all chunks, warning log). -/
def chunkMarkdownFiles (files : List RawFile) : List Chunk × List (Str × Nat) :=
  (files.flatMap keptChunks, files.flatMap fileWarnings)

/-! ## Index build (src/embedding.py lines 78-128) -/

/-- A row of the vector store table (the `Chunks` LanceModel): text plus
metadata.  The embedding vector is produced by the external embedding function
and plays no role in any claim, so it is not carried. -/
structure IndexRecord where
  text : Str
  metadata : ChunkMetadata
deriving DecidableEq, Repr

/-- Processing of one chunk for insertion (src/embedding.py lines 86-101). -/
def toRecord (c : Chunk) : IndexRecord :=
  { text := c.text, metadata := deriveMetadata c }

/-- batch_size = 100 (src/embedding.py line 110). -/
def batchSize : Nat := 100

/-- The batch insertion loop of src/embedding.py lines 112-115, with the table
modelled as the list of inserted rows (the store's `add` appends a batch;
modelled from the spec, section 6, vector store operations).  Fuel makes the
recursion structural; `buildIndex` supplies enough. -/
def insertLoopF : Nat → List IndexRecord → List IndexRecord → List IndexRecord
  | 0, table, _ => table
  | fuel + 1, table, pending =>
    if pending.isEmpty then table
    else insertLoopF fuel (table ++ pending.take batchSize) (pending.drop batchSize)

/-- The full index build: create the table with mode="overwrite" (so it starts
empty), process every chunk, insert in batches of `batchSize`
(src/embedding.py lines 78-116). -/
def buildIndex (chunks : List Chunk) : List IndexRecord :=
  insertLoopF (chunks.length + 1) [] (chunks.map toRecord)

/-- table.count_rows() (src/embedding.py line 128): the number of rows. -/
def rowCount (table : List IndexRecord) : Nat := table.length

/-! ## Context assembly (src/chat.py lines 25-58) -/

/-- Python truthiness of an optional string (`if filename:` / `if title:`). -/
def truthyStr : Option Str → Bool
  | none => false
  | some s => !s.isEmpty

/-- The string carried by an optional string (only read under truthiness). -/
def optStr : Option Str → Str
  | none => []
  | some s => s

/-- The page part of a citation:
`f"p. \x7b', '.join(str(p) for p in page_numbers)\x7d"` (src/chat.py line 50). -/
def pagesJoined (ps : List Nat) : Str :=
  ("p. ").data ++ joinSep (", ").data (ps.map natRepr)

/-- `source_parts` of src/chat.py lines 46-50: the filename when truthy, then
the page part when page_numbers is not None and non-empty. -/
def sourceParts (m : ChunkMetadata) : List Str :=
  (if truthyStr m.filename then [optStr m.filename] else []) ++
    (match m.page_numbers with
     | some ps => if ps.length > 0 then [pagesJoined ps] else []
     | none => [])

/-- The citation lines appended after a result's text, without the leading
newline: `Source: ...` always, then `\nTitle: ...` when title is truthy
(src/chat.py lines 52-54). -/
def citationBlock (m : ChunkMetadata) : Str :=
  (("Source: ").data ++ joinSep (" - ").data (sourceParts m)) ++
    (if truthyStr m.title then '\n' :: (("Title: ").data ++ optStr m.title) else [])

/-- `source` of src/chat.py lines 52-54: the citation block preceded by a
newline; it is appended to the row's text unconditionally (line 56). -/
def sourceFor (m : ChunkMetadata) : Str := '\n' :: citationBlock m

/-- get_context (src/chat.py lines 25-58), applied to the rows the search
returned: render each row as text plus citation and join with a blank line. -/
def getContext (rows : List IndexRecord) : Str :=
  joinSep ("\n\n").data (rows.map (fun r => r.text ++ sourceFor r.metadata))

/-- The rendering claimed by the spec (claim C2, written from the spec's
words, for comparison with `getContext`): each result renders as
`<text>\nSource: <filename> - p. <pages>\nTitle: <title>`, with the Source
line omitted when filename is null/empty and page_numbers is null/empty, and
the Title line omitted when title is null/empty. -/
def renderRowClaim (r : IndexRecord) : Str :=
  r.text ++
    (if truthyStr r.metadata.filename ||
        (match r.metadata.page_numbers with
         | some ps => !ps.isEmpty
         | none => false) then
      ('\n' :: ("Source: ").data) ++ optStr r.metadata.filename ++ (" - ").data ++
        pagesJoined (match r.metadata.page_numbers with
                     | some ps => ps
                     | none => [])
     else []) ++
    (if truthyStr r.metadata.title
     then ('\n' :: ("Title: ").data) ++ optStr r.metadata.title else [])

/-- The assembled context claimed by the spec (claim C2's words): the claimed
row renderings joined with a blank-line separator in input order. -/
def assembleClaim (rows : List IndexRecord) : Str :=
  joinSep ("\n\n").data (rows.map renderRowClaim)

/-- The amended rendering of one result (claim C2 as corrected): the Source
line is always present — `Source: ` followed by the " - "-join of the
available parts (the filename when non-empty, `p. <comma-joined pages>` when
page_numbers is non-null and non-empty), possibly empty; the Title line is
omitted when title is null/empty. -/
def renderRowAmended (r : IndexRecord) : Str :=
  let fnPart : List Str :=
    match r.metadata.filename with
    | some s => if s.isEmpty then [] else [s]
    | none => []
  let pgPart : List Str :=
    match r.metadata.page_numbers with
    | some ps =>
      if ps.isEmpty then []
      else [("p. ").data ++ joinSep (", ").data (ps.map natRepr)]
    | none => []
  let titleTail : Str :=
    match r.metadata.title with
    | some s => if s.isEmpty then [] else ('\n' :: ("Title: ").data) ++ s
    | none => []
  r.text ++ ('\n' :: ("Source: ").data) ++ joinSep (" - ").data (fnPart ++ pgPart) ++ titleTail

/-- The assembled context as amended: amended row renderings joined with a
blank-line separator, preserving order. -/
def assembleAmended (rows : List IndexRecord) : Str :=
  joinSep ("\n\n").data (rows.map renderRowAmended)

/-! ## Citation re-parse (src/chat.py lines 170-182 and the spec's reverse
parsing contract) -/

/-- The key/value a citation line contributes: Python
`line.split(": ")[0] : line.split(": ")[1]` (src/chat.py lines 176-180). -/
def splitKV (l : Str) : Str × Str :=
  ((pySplit ((": ").data) l).getD 0 [], (pySplit ((": ").data) l).getD 1 [])

/-- Re-parsing a rendered citation block.  The line splitting, the
`": " in line` filter and the key/value extraction follow the presentation
layer's re-parse loop (src/chat.py lines 170-182).  The loop keeps the Source
value as a display string; decomposing it back into filename and page numbers
(splitting at " - p. ", then ", ", then reading the decimal numbers) follows
the spec's reverse-parsing contract for the assembler's output format. -/
def parseCitation (block : Str) : Option ChunkMetadata :=
  let lines := pySplit (("\n").data) block
  let kvs := (lines.filter (fun l => containsSub ((": ").data) l)).map splitKV
  match dictGet kvs (("Source").data), dictGet kvs (("Title").data) with
  | some sv, some tv =>
    (match pySplit ((" - p. ").data) sv with
     | [fv, pv] =>
       some { filename := some fv
              page_numbers := some ((pySplit ((", ").data) pv).map parseNatStr)
              title := some tv }
     | _ => none)
  | _, _ => none

/-! ## Retrieval and the chat turn (src/chat.py lines 36, 61-93, 156-203) -/

/-- Modelled from the spec: the vector store's `search(query).limit(k)` returns
the top-k rows ranked by relevance (section 6 of the spec); ranking by the
external embedding is not modelled, so the table's rows stand already in
ranked order and search takes the first k.  On a table with zero rows this
returns the empty sequence. -/
def tableSearch (rows : List IndexRecord) (query : Str) (k : Nat) : List IndexRecord :=
  rows.take k

/-- Chat message roles. -/
inductive Role
  | user
  | assistant
  | system
deriving DecidableEq, Repr

/-- A chat message (an entry of st.session_state.messages). -/
structure Msg where
  role : Role
  content : Str
deriving DecidableEq, Repr

/-- The system prompt embedding the assembled context (src/chat.py lines
71-77; wording abridged, only the embedding of the context matters here). -/
def systemPrompt (context : Str) : Str :=
  ("You are a GDPR compliance assistant. Answer questions based on the provided context.\n\nContext:\n").data
    ++ context ++ ['\n']

/-- The apology returned when the completion call raises
(src/chat.py line 93). -/
def apologyText : Str :=
  ("Sorry, an error occurred while generating the response.").data

/-- get_chat_response (src/chat.py lines 61-93): prepend the system prompt to
the history and call the external completion API; `complete` is that external
call, whose outcome (a response, or a raised exception) is an `Except` value.
On an exception the error is shown and the apology string is returned. -/
def getChatResponse (messages : List Msg) (context : Str)
    (complete : List Msg → Except Str Str) : Str :=
  match complete ({ role := Role.system, content := systemPrompt context } :: messages) with
  | Except.ok r => r
  | Except.error _ => apologyText

/-- One user turn of the chat flow (src/chat.py lines 156-203): append the
user message to the history, retrieve context for the prompt (num_results
defaults to 10, src/chat.py line 25), generate a response (never raising:
get_chat_response catches), append the assistant message. -/
def chatTurn (history : List Msg) (prompt : Str) (rows : List IndexRecord)
    (complete : List Msg → Except Str Str) : List Msg :=
  let withUser := history ++ [{ role := Role.user, content := prompt }]
  let context := getContext (tableSearch rows prompt 10)
  let response := getChatResponse withUser context complete
  withUser ++ [{ role := Role.assistant, content := response }]

/-- A history that alternates roles starting with user: a sequence of
user/assistant pairs. -/
inductive Alternating : List Msg → Prop
  | nil : Alternating []
  | pair (p r : Str) (rest : List Msg) (h : Alternating rest) :
      Alternating ({ role := Role.user, content := p } ::
        { role := Role.assistant, content := r } :: rest)

/-! ## The chunker's token budget (claim C1).

Modelled from the spec: the chunking algorithm itself is the docling
HybridChunker, an external library configured by src/chunking.py lines 57-61
with max_tokens = MAX_TOKENS and merge_peers = True; the model below follows
the spec's section 4.1: walk the items in order, group contiguous items
sharing the same heading path while the running token count stays within the
budget, close the chunk on exceeding it (an item alone over budget gets its
own chunk — never split below item granularity), then merge adjacent chunks
whose combined size still fits the budget. -/

/-- Modelled from the spec: a content item as seen by the chunker — its
heading path and the token count the Tokenizer Adapter reports for it. -/
structure SItem where
  headingPath : List Str
  tokens : Nat
deriving DecidableEq, Repr

/-- MAX_TOKENS = 8191 (src/chunking.py line 19). -/
def MAX_TOKENS : Nat := 8191

/-- The token count of a chunk (a group of items): the sum of the items'
token counts. -/
def sumTokens (ch : List SItem) : Nat := (ch.map SItem.tokens).sum

/-- Modelled from the spec: the grouping walk.  `cur` holds the current group
in reverse, `curPath` its heading path; an item extends the group only when it
shares the heading path and the budget still holds, otherwise the group is
closed and the item starts a new one. -/
def packItemsGo (budget : Nat) (curPath : List Str) (cur : List SItem) :
    List SItem → List (List SItem)
  | [] => [cur.reverse]
  | it :: rest =>
    if it.headingPath = curPath ∧ sumTokens cur + it.tokens ≤ budget then
      packItemsGo budget curPath (it :: cur) rest
    else
      cur.reverse :: packItemsGo budget it.headingPath [it] rest

/-- Modelled from the spec: group the document's items in order. -/
def packItems (budget : Nat) : List SItem → List (List SItem)
  | [] => []
  | it :: rest => packItemsGo budget it.headingPath [it] rest

/-- Modelled from the spec: the peer-merge pass — merge adjacent chunks while
their combined size still fits the budget. -/
def mergePeersGo (budget : Nat) (cur : List SItem) :
    List (List SItem) → List (List SItem)
  | [] => [cur]
  | c :: rest =>
    if sumTokens cur + sumTokens c ≤ budget then mergePeersGo budget (cur ++ c) rest
    else cur :: mergePeersGo budget c rest

/-- Modelled from the spec: peer merge over the whole chunk list. -/
def mergePeers (budget : Nat) : List (List SItem) → List (List SItem)
  | [] => []
  | c :: rest => mergePeersGo budget c rest

/-- Modelled from the spec: the HybridChunker as configured by
src/chunking.py lines 57-61 (token budget plus peer merge). -/
def hybridChunk (budget : Nat) (items : List SItem) : List (List SItem) :=
  mergePeers budget (packItems budget items)

/-- The token budget invariant a produced chunk may satisfy: within budget, or
a single item that alone exceeds it. -/
def chunkOk (budget : Nat) (ch : List SItem) : Prop :=
  sumTokens ch ≤ budget ∨ ∃ it, ch = [it] ∧ budget < it.tokens

/-! ## Supporting lemmas -/

theorem pyStrip_eq_nil_iff (s : Str) : pyStrip s = [] ↔ ∀ c ∈ s, isWs c := by
  unfold pyStrip
  rw [List.reverse_eq_nil_iff, List.dropWhile_eq_nil_iff]
  constructor
  · intro h c hc
    by_cases hws : isWs c
    · exact hws
    · exfalso
      have hsplit := @List.takeWhile_append_dropWhile _ isWs s
      rcases List.mem_append.mp (hsplit ▸ hc) with h1 | h2
      · exact hws (List.mem_takeWhile_imp h1)
      · exact hws (h c (List.mem_reverse.mpr h2))
  · intro h c hc
    exact h c (List.dropWhile_subset _ (List.mem_reverse.mp hc))

theorem insertLoopF_adequate :
    ∀ fuel table pending, pending.length < fuel →
      insertLoopF fuel table pending = table ++ pending := by
  intro fuel
  induction fuel with
  | zero => intro table pending h; omega
  | succ g ih =>
    intro table pending h
    by_cases hp : pending = []
    · subst hp; simp [insertLoopF]
    · have hne : pending.isEmpty = false := by
        simpa [List.isEmpty_iff] using hp
      rw [insertLoopF, hne]
      simp only [Bool.false_eq_true, if_false]
      rw [ih]
      · rw [List.append_assoc, List.take_append_drop]
      · have hlen : 0 < pending.length := List.length_pos.mpr hp
        simp only [List.length_drop, batchSize]
        omega

theorem flatMap_keptChunks_length (files : List RawFile) :
    (files.flatMap keptChunks).length =
      ((files.flatMap RawFile.chunks).filter
        (fun c => !(pyStrip c.serialized).isEmpty)).length := by
  induction files with
  | nil => rfl
  | cons f rest ih =>
    simp only [List.flatMap_cons, List.filter_append, List.length_append, ih, keptChunks]

theorem mem_joinSep {sep : Str} {xs : List Str} {c : Char}
    (h : c ∈ joinSep sep xs) : c ∈ sep ∨ ∃ x ∈ xs, c ∈ x := by
  induction xs with
  | nil => simp [joinSep] at h
  | cons x rest ih =>
    cases rest with
    | nil =>
      simp only [joinSep] at h
      exact Or.inr ⟨x, by simp, h⟩
    | cons y rest2 =>
      simp only [joinSep, List.append_assoc, List.mem_append] at h
      rcases h with h1 | h2 | h3
      · exact Or.inr ⟨x, by simp, h1⟩
      · exact Or.inl h2
      · rcases ih h3 with hl | ⟨z, hz, hcz⟩
        · exact Or.inl hl
        · exact Or.inr ⟨z, List.mem_cons_of_mem _ hz, hcz⟩

theorem natReprF_fuelIrrel :
    ∀ f1 f2 n, n < f1 → n < f2 → natReprF f1 n = natReprF f2 n := by
  intro f1
  induction f1 with
  | zero => intro f2 n h; omega
  | succ g ih =>
    intro f2 n h1 h2
    cases f2 with
    | zero => omega
    | succ g2 =>
      by_cases hn : n < 10
      · simp [natReprF, hn]
      · have hd : n / 10 < n := Nat.div_lt_self (by omega) (by omega)
        simp only [natReprF, hn, if_false]
        rw [ih g2 (n / 10) (by omega) (by omega)]

theorem natReprF_digits :
    ∀ fuel n, n < fuel → ∀ c ∈ natReprF fuel n, c ∈ ("0123456789").data := by
  intro fuel
  induction fuel with
  | zero => intro n h; omega
  | succ g ih =>
    intro n h c hc
    by_cases hn : n < 10
    · simp only [natReprF, hn, if_true, List.mem_singleton] at hc
      subst hc
      have : ∀ m, m < 10 → Nat.digitChar m ∈ ("0123456789").data := by decide
      exact this n hn
    · have hd : n / 10 < n := Nat.div_lt_self (by omega) (by omega)
      simp only [natReprF, hn, if_false, List.mem_append, List.mem_singleton] at hc
      rcases hc with h1 | h2
      · exact ih (n / 10) (by omega) c h1
      · subst h2
        have : ∀ m, m < 10 → Nat.digitChar m ∈ ("0123456789").data := by decide
        exact this (n % 10) (Nat.mod_lt n (by omega))

theorem natRepr_digits {n : Nat} {c : Char} (h : c ∈ natRepr n) :
    c ∈ ("0123456789").data :=
  natReprF_digits (n + 1) n (Nat.lt_succ_self n) c h

theorem parseNatStr_natReprF :
    ∀ fuel n, n < fuel → parseNatStr (natReprF fuel n) = n := by
  intro fuel
  induction fuel with
  | zero => intro n h; omega
  | succ g ih =>
    intro n h
    by_cases hn : n < 10
    · simp only [natReprF, hn, if_true, parseNatStr, List.foldl_cons, List.foldl_nil]
      have : ∀ m, m < 10 → (Nat.digitChar m).toNat - 48 = m := by decide
      simp [this n hn]
    · have hd : n / 10 < n := Nat.div_lt_self (by omega) (by omega)
      simp only [natReprF, hn, if_false, parseNatStr, List.foldl_append,
        List.foldl_cons, List.foldl_nil]
      have hrec : List.foldl (fun a c => a * 10 + (c.toNat - 48)) 0 (natReprF g (n / 10))
          = n / 10 := ih (n / 10) (by omega)
      rw [hrec]
      have hmod : (Nat.digitChar (n % 10)).toNat - 48 = n % 10 := by
        have : ∀ m, m < 10 → (Nat.digitChar m).toNat - 48 = m := by decide
        exact this (n % 10) (Nat.mod_lt n (by omega))
      rw [hmod]
      omega

theorem parseNatStr_natRepr (n : Nat) : parseNatStr (natRepr n) = n :=
  parseNatStr_natReprF (n + 1) n (Nat.lt_succ_self n)

theorem pySplitF_succ_nil (c0 : Char) (sep1 : Str) (fuel : Nat) (acc : Str) :
    pySplitF c0 sep1 (fuel + 1) acc [] = [acc.reverse] := rfl

theorem pySplitF_succ (c0 : Char) (sep1 : Str) (fuel : Nat) (acc : Str)
    (c : Char) (rest : Str) :
    pySplitF c0 sep1 (fuel + 1) acc (c :: rest) =
      if (c0 :: sep1).isPrefixOf (c :: rest) then
        acc.reverse :: pySplitF c0 sep1 fuel [] (rest.drop sep1.length)
      else pySplitF c0 sep1 fuel (c :: acc) rest := rfl

theorem pySplitF_fuelIrrel (c0 : Char) (sep1 : Str) :
    ∀ f1 f2 acc s, s.length < f1 → s.length < f2 →
      pySplitF c0 sep1 f1 acc s = pySplitF c0 sep1 f2 acc s := by
  intro f1
  induction f1 with
  | zero => intro f2 acc s h _; omega
  | succ g ih =>
    intro f2 acc s h1 h2
    cases f2 with
    | zero => omega
    | succ g2 =>
      cases s with
      | nil => rw [pySplitF_succ_nil, pySplitF_succ_nil]
      | cons c rest =>
        rw [pySplitF_succ, pySplitF_succ]
        simp only [List.length_cons] at h1 h2
        by_cases hp : (c0 :: sep1).isPrefixOf (c :: rest) = true
        · rw [if_pos hp, if_pos hp]
          congr 1
          apply ih
          · have : (rest.drop sep1.length).length ≤ rest.length := by
              rw [List.length_drop]; omega
            omega
          · have : (rest.drop sep1.length).length ≤ rest.length := by
              rw [List.length_drop]; omega
            omega
        · rw [if_neg hp, if_neg hp]
          exact ih g2 (c :: acc) rest (by omega) (by omega)

theorem prefix_drop_le {sep s : Str} {i : Nat} (h : sep <+: s.drop i) :
    sep.length ≤ s.length - i := by
  have := h.length_le
  simpa [List.length_drop] using this

theorem prefix_drop_getElem {sep s : Str} {i j : Nat}
    (h : sep <+: s.drop i) (hj : j < sep.length) (hw : i + j < s.length) :
    s[i + j] = sep[j] := by
  obtain ⟨r, hr⟩ := h
  have hj2 : j < (s.drop i).length := by
    rw [List.length_drop]
    have := prefix_drop_le ⟨r, hr⟩
    omega
  have hj3 : j < (sep ++ r).length := by simp only [List.length_append]; omega
  have e1 : s[i + j] = (s.drop i)[j] := (List.getElem_drop ..).symm
  have e2 : (s.drop i)[j] = (sep ++ r)[j] := List.getElem_of_eq hr.symm hj2
  have e3 : (sep ++ r)[j] = sep[j] := List.getElem_append_left _
  exact e1.trans (e2.trans e3)

theorem noOccur_of_char (j : Nat) {sep s : Str} (hj : j < sep.length)
    (hs : sep[j] ∉ s) : ∀ i, ¬ sep <+: s.drop i := by
  intro i h
  have hle := prefix_drop_le h
  have hw : i + j < s.length := by omega
  have he := prefix_drop_getElem h hj hw
  exact hs (he ▸ List.getElem_mem hw)

theorem noOccurBefore_of_char (j : Nat) {sep a b : Str} (hj : j < sep.length)
    (ha : sep[j] ∉ a)
    (hd : ∀ m, m < j → ∀ hm : m < sep.length, sep[m] ≠ sep[j]) :
    ∀ i, i < a.length → ¬ sep <+: (a ++ (sep ++ b)).drop i := by
  intro i hi h
  have hle := prefix_drop_le h
  have hlen : (a ++ (sep ++ b)).length = a.length + (sep.length + b.length) := by
    simp
  have hw : i + j < (a ++ (sep ++ b)).length := by omega
  have he := prefix_drop_getElem h hj hw
  by_cases hcase : i + j < a.length
  · have e : (a ++ (sep ++ b))[i + j] = a[i + j] := List.getElem_append_left _
    have hx : sep[j] = a[i + j] := he.symm.trans e
    exact ha (by rw [hx]; exact List.getElem_mem hcase)
  · have hm : i + j - a.length < j := by omega
    have hm2 : i + j - a.length < sep.length := by omega
    have hb2 : i + j - a.length < (sep ++ b).length := by
      simp only [List.length_append]; omega
    have e : (a ++ (sep ++ b))[i + j] = (sep ++ b)[i + j - a.length] := by
      rw [List.getElem_append_right]
      omega
    have e2 : (sep ++ b)[i + j - a.length] = sep[i + j - a.length] :=
      List.getElem_append_left _
    exact hd _ hm hm2 ((e.trans e2).symm.trans he)

theorem pySplitF_noOccur (c0 : Char) (sep1 : Str) :
    ∀ fuel acc s, s.length < fuel → (∀ i, ¬ (c0 :: sep1) <+: s.drop i) →
      pySplitF c0 sep1 fuel acc s = [acc.reverse ++ s] := by
  intro fuel
  induction fuel with
  | zero => intro acc s h _; omega
  | succ g ih =>
    intro acc s hlen hno
    cases s with
    | nil => rw [pySplitF_succ_nil]; simp
    | cons c rest =>
      have h0 : ¬ (c0 :: sep1) <+: (c :: rest) := by
        have := hno 0
        simpa using this
      have hp : ((c0 :: sep1).isPrefixOf (c :: rest)) = false := by
        rw [Bool.eq_false_iff]
        intro hb
        exact h0 (List.isPrefixOf_iff_prefix.mp hb)
      rw [pySplitF_succ, if_neg (by rw [hp]; exact Bool.false_ne_true)]
      have hno2 : ∀ i, ¬ (c0 :: sep1) <+: rest.drop i := by
        intro i
        have := hno (i + 1)
        simpa using this
      rw [ih (c :: acc) rest (by simp only [List.length_cons] at hlen; omega) hno2]
      simp

theorem pySplitF_splitAt (c0 : Char) (sep1 : Str) (b : Str) :
    ∀ a fuel acc, (a ++ ((c0 :: sep1) ++ b)).length < fuel →
      (∀ i, i < a.length → ¬ (c0 :: sep1) <+: (a ++ ((c0 :: sep1) ++ b)).drop i) →
      pySplitF c0 sep1 fuel acc (a ++ ((c0 :: sep1) ++ b)) =
        (acc.reverse ++ a) :: pySplitF c0 sep1 (b.length + 1) [] b := by
  intro a
  induction a with
  | nil =>
    intro fuel acc hlen hno
    cases fuel with
    | zero => simp at hlen
    | succ g =>
      simp only [List.nil_append] at hlen ⊢
      have hp : (c0 :: sep1).isPrefixOf (c0 :: (sep1 ++ b)) = true :=
        List.isPrefixOf_iff_prefix.mpr ⟨b, by simp⟩
      rw [show ((c0 :: sep1) ++ b) = c0 :: (sep1 ++ b) from rfl, pySplitF_succ,
        if_pos hp, List.drop_left]
      congr 1
      · simp
      · apply pySplitF_fuelIrrel
        · simp only [List.length_cons, List.length_append] at hlen; omega
        · omega
  | cons x a2 ih =>
    intro fuel acc hlen hno
    cases fuel with
    | zero => simp at hlen
    | succ g =>
      have h0 : ¬ (c0 :: sep1) <+: ((x :: a2) ++ ((c0 :: sep1) ++ b)) := by
        have := hno 0 (by simp)
        simpa using this
      have hp : ((c0 :: sep1).isPrefixOf (x :: (a2 ++ ((c0 :: sep1) ++ b)))) = false := by
        rw [Bool.eq_false_iff]
        intro hb
        exact h0 (List.isPrefixOf_iff_prefix.mp hb)
      rw [show ((x :: a2) ++ ((c0 :: sep1) ++ b)) = x :: (a2 ++ ((c0 :: sep1) ++ b))
          from rfl, pySplitF_succ, if_neg (by rw [hp]; exact Bool.false_ne_true)]
      rw [ih g (x :: acc)
        (by simp only [List.length_cons, List.length_append] at hlen ⊢; omega)
        (by intro i hi
            have := hno (i + 1) (by simp only [List.length_cons]; omega)
            simpa using this)]
      simp

theorem pySplit_noOccur {c0 : Char} {sep1 s : Str}
    (h : ∀ i, ¬ (c0 :: sep1) <+: s.drop i) : pySplit (c0 :: sep1) s = [s] := by
  show pySplitF c0 sep1 (s.length + 1) [] s = [s]
  rw [pySplitF_noOccur c0 sep1 (s.length + 1) [] s (Nat.lt_succ_self _) h]
  simp

theorem pySplit_cons_append {c0 : Char} {sep1 a b : Str}
    (h : ∀ i, i < a.length → ¬ (c0 :: sep1) <+: (a ++ ((c0 :: sep1) ++ b)).drop i) :
    pySplit (c0 :: sep1) (a ++ ((c0 :: sep1) ++ b)) = a :: pySplit (c0 :: sep1) b := by
  show pySplitF c0 sep1 ((a ++ ((c0 :: sep1) ++ b)).length + 1) []
      (a ++ ((c0 :: sep1) ++ b)) = _
  rw [pySplitF_splitAt c0 sep1 b a _ [] (Nat.lt_succ_self _) h]
  simp [pySplit]

theorem containsSub_append_self (c0 : Char) (sep1 a b : Str) :
    containsSub (c0 :: sep1) (a ++ ((c0 :: sep1) ++ b)) = true := by
  induction a with
  | nil =>
    have hp : (c0 :: sep1).isPrefixOf (c0 :: (sep1 ++ b)) = true :=
      List.isPrefixOf_iff_prefix.mpr ⟨b, by simp⟩
    show ((c0 :: sep1).isPrefixOf (c0 :: (sep1 ++ b)) ||
      containsSub (c0 :: sep1) (sep1 ++ b)) = true
    rw [hp, Bool.true_or]
  | cons x a2 ih =>
    show ((c0 :: sep1).isPrefixOf (x :: (a2 ++ ((c0 :: sep1) ++ b))) ||
      containsSub (c0 :: sep1) (a2 ++ ((c0 :: sep1) ++ b))) = true
    rw [ih, Bool.or_true]

theorem pySplit_joinSep {c0 : Char} {sep1 : Str} :
    ∀ xs : List Str, xs ≠ [] → (∀ x ∈ xs, c0 ∉ x) →
      pySplit (c0 :: sep1) (joinSep (c0 :: sep1) xs) = xs := by
  intro xs
  induction xs with
  | nil => intro h _; exact absurd rfl h
  | cons x rest ih =>
    intro _ hmem
    cases rest with
    | nil =>
      show pySplit (c0 :: sep1) x = [x]
      apply pySplit_noOccur
      apply noOccur_of_char 0 (by simp)
      simpa using hmem x (by simp)
    | cons y rest2 =>
      have hjoin : joinSep (c0 :: sep1) (x :: y :: rest2) =
          x ++ ((c0 :: sep1) ++ joinSep (c0 :: sep1) (y :: rest2)) := by
        show x ++ (c0 :: sep1) ++ joinSep (c0 :: sep1) (y :: rest2) = _
        rw [List.append_assoc]
      rw [hjoin, pySplit_cons_append, ih (by simp)
        (fun z hz => hmem z (List.mem_cons_of_mem _ hz))]
      apply noOccurBefore_of_char 0 (by simp)
      · simpa using hmem x (by simp)
      · intro m hm _; omega

theorem truthyStr_some {s : Str} (h : s ≠ []) : truthyStr (some s) = true := by
  simp [truthyStr, List.isEmpty_iff, h]

theorem joinSep_pages_chars {pages : List Nat} {c : Char}
    (h : c ∈ joinSep ((", ").data) (pages.map natRepr)) :
    c ∈ (", 0123456789").data := by
  rcases mem_joinSep h with h1 | ⟨x, hx, hcx⟩
  · exact (by decide : ∀ a ∈ (((", ").data) : Str), a ∈ (", 0123456789").data) c h1
  · obtain ⟨n, _, rfl⟩ := List.mem_map.mp hx
    exact (by decide : ∀ a ∈ ((("0123456789").data) : Str), a ∈ (", 0123456789").data) c
      (natRepr_digits hcx)

theorem joinSep_pages_not_mem {pages : List Nat} {c : Char}
    (hc : c ∉ (", 0123456789").data) :
    c ∉ joinSep ((", ").data) (pages.map natRepr) :=
  fun h => hc (joinSep_pages_chars h)

theorem citationBlock_full (f t : Str) (pages : List Nat)
    (hf0 : f ≠ []) (ht0 : t ≠ []) (hp : pages ≠ []) :
    citationBlock { filename := some f, page_numbers := some pages, title := some t } =
      (("Source: ").data ++
          (f ++ ((" - p. ").data ++ joinSep ((", ").data) (pages.map natRepr)))) ++
        ((("\n").data) ++ (("Title: ").data ++ t)) := by
  have hfT : truthyStr (some f) = true := truthyStr_some hf0
  have htT : truthyStr (some t) = true := truthyStr_some ht0
  have hplen : pages.length > 0 := List.length_pos.mpr hp
  simp only [citationBlock, sourceParts, optStr, pagesJoined, hfT, htT, hplen, if_true,
    gt_iff_lt, joinSep, List.append_assoc]
  simp only [List.cons_append, List.nil_append, List.append_assoc]

theorem citationBlock_lines (f t : Str) (pages : List Nat)
    (hf0 : f ≠ []) (hfn : '\n' ∉ f) (ht0 : t ≠ []) (htn : '\n' ∉ t)
    (hp : pages ≠ []) :
    pySplit (("\n").data)
      (citationBlock { filename := some f, page_numbers := some pages, title := some t }) =
      [("Source: ").data ++
          (f ++ ((" - p. ").data ++ joinSep ((", ").data) (pages.map natRepr))),
        ("Title: ").data ++ t] := by
  rw [citationBlock_full f t pages hf0 ht0 hp]
  rw [pySplit_cons_append]
  · rw [pySplit_noOccur]
    intro i
    apply noOccur_of_char 0 (by decide)
    intro hmem
    simp only [List.mem_append] at hmem
    rcases hmem with h1 | h2
    · revert h1; decide
    · exact htn h2
  · apply noOccurBefore_of_char 0 (by decide)
    · intro hmem
      simp only [List.mem_append] at hmem
      rcases hmem with h1 | h2 | h3 | h4
      · revert h1; decide
      · exact hfn h2
      · revert h3; decide
      · exact joinSep_pages_not_mem (by decide) h4
    · intro m hm _; omega

theorem splitKV_sourceLine (f pjv : Str) (hfc : ':' ∉ f) (hpjc : ':' ∉ pjv) :
    splitKV (("Source: ").data ++ (f ++ ((" - p. ").data ++ pjv))) =
      (("Source").data, f ++ ((" - p. ").data ++ pjv)) := by
  have h2 : pySplit ((": ").data) (f ++ ((" - p. ").data ++ pjv)) =
      [f ++ ((" - p. ").data ++ pjv)] := by
    apply pySplit_noOccur
    apply noOccur_of_char 0 (by decide)
    intro hmem
    simp only [List.mem_append] at hmem
    rcases hmem with ha | hb | hc
    · exact hfc ha
    · revert hb; decide
    · exact hpjc hc
  have h1 : pySplit ((": ").data)
      (("Source").data ++ (((": ").data) ++ (f ++ ((" - p. ").data ++ pjv)))) =
      ("Source").data :: pySplit ((": ").data) (f ++ ((" - p. ").data ++ pjv)) := by
    apply pySplit_cons_append
    apply noOccurBefore_of_char 0 (by decide)
    · decide
    · intro m hm _; omega
  have hsplit : pySplit ((": ").data)
      (("Source: ").data ++ (f ++ ((" - p. ").data ++ pjv))) =
      [("Source").data, f ++ ((" - p. ").data ++ pjv)] := by
    calc pySplit ((": ").data) (("Source: ").data ++ (f ++ ((" - p. ").data ++ pjv)))
        = ("Source").data :: pySplit ((": ").data) (f ++ ((" - p. ").data ++ pjv)) := h1
      _ = [("Source").data, f ++ ((" - p. ").data ++ pjv)] := by rw [h2]
  unfold splitKV
  rw [hsplit]
  rfl

theorem splitKV_titleLine (t : Str) (htc : ':' ∉ t) :
    splitKV (("Title: ").data ++ t) = (("Title").data, t) := by
  have h2 : pySplit ((": ").data) t = [t] := by
    apply pySplit_noOccur
    exact noOccur_of_char 0 (by decide) htc
  have h1 : pySplit ((": ").data) (("Title").data ++ (((": ").data) ++ t)) =
      ("Title").data :: pySplit ((": ").data) t := by
    apply pySplit_cons_append
    apply noOccurBefore_of_char 0 (by decide)
    · decide
    · intro m hm _; omega
  have hsplit : pySplit ((": ").data) (("Title: ").data ++ t) = [("Title").data, t] := by
    calc pySplit ((": ").data) (("Title: ").data ++ t)
        = ("Title").data :: pySplit ((": ").data) t := h1
      _ = [("Title").data, t] := by rw [h2]
  unfold splitKV
  rw [hsplit]
  rfl

theorem dictGet_two_source (sv tv : Str) :
    dictGet [(("Source").data, sv), (("Title").data, tv)] (("Source").data) = some sv := by
  have e1 : ((("Title").data : Str) == ("Source").data) = false := by decide
  have e2 : ((("Source").data : Str) == ("Source").data) = true := by decide
  simp [dictGet, List.find?, e1, e2]

theorem dictGet_two_title (sv tv : Str) :
    dictGet [(("Source").data, sv), (("Title").data, tv)] (("Title").data) = some tv := by
  have e1 : ((("Title").data : Str) == ("Title").data) = true := by decide
  simp [dictGet, List.find?, e1]

/-- C3 (amended): re-parsing a rendered citation block recovers the metadata,
provided filename and title are non-empty and free of the format's delimiter
characters (no newline and no colon in either; no dash in the filename) and
page_numbers is non-empty. -/
theorem c3_citation_round_trip (f t : Str) (pages : List Nat)
    (hf0 : f ≠ []) (hfc : ':' ∉ f) (hfn : '\n' ∉ f) (hfd : '-' ∉ f)
    (ht0 : t ≠ []) (htc : ':' ∉ t) (htn : '\n' ∉ t)
    (hp : pages ≠ []) :
    parseCitation
        (citationBlock { filename := some f, page_numbers := some pages, title := some t }) =
      some { filename := some f, page_numbers := some pages, title := some t } := by
  have hlines := citationBlock_lines f t pages hf0 hfn ht0 htn hp
  have hpjc : ':' ∉ joinSep ((", ").data) (pages.map natRepr) :=
    joinSep_pages_not_mem (by decide)
  have hpjd : '-' ∉ joinSep ((", ").data) (pages.map natRepr) :=
    joinSep_pages_not_mem (by decide)
  have hcS : containsSub ((": ").data)
      (("Source: ").data ++
        (f ++ ((" - p. ").data ++ joinSep ((", ").data) (pages.map natRepr)))) = true :=
    containsSub_append_self ':' ((" ").data) (("Source").data)
      (f ++ ((" - p. ").data ++ joinSep ((", ").data) (pages.map natRepr)))
  have hcT : containsSub ((": ").data) (("Title: ").data ++ t) = true :=
    containsSub_append_self ':' ((" ").data) (("Title").data) t
  have hkvS := splitKV_sourceLine f (joinSep ((", ").data) (pages.map natRepr)) hfc hpjc
  have hkvT := splitKV_titleLine t htc
  have hsv : pySplit ((" - p. ").data)
      (f ++ ((" - p. ").data ++ joinSep ((", ").data) (pages.map natRepr))) =
      [f, joinSep ((", ").data) (pages.map natRepr)] := by
    have hrest : pySplit ((" - p. ").data) (joinSep ((", ").data) (pages.map natRepr)) =
        [joinSep ((", ").data) (pages.map natRepr)] := by
      apply pySplit_noOccur
      exact noOccur_of_char 1 (by decide) hpjd
    have hfirst : pySplit ((" - p. ").data)
        (f ++ (((" - p. ").data) ++ joinSep ((", ").data) (pages.map natRepr))) =
        f :: pySplit ((" - p. ").data) (joinSep ((", ").data) (pages.map natRepr)) := by
      apply pySplit_cons_append
      apply noOccurBefore_of_char 1 (by decide) hfd
      intro m hm hm2
      have hm0 : m = 0 := by omega
      subst hm0
      exact (by decide : (' ' : Char) ≠ '-')
    rw [hfirst, hrest]
  have hpv : pySplit ((", ").data) (joinSep ((", ").data) (pages.map natRepr)) =
      pages.map natRepr := by
    apply pySplit_joinSep (pages.map natRepr) (by simpa using hp)
    intro x hx
    obtain ⟨n, _, rfl⟩ := List.mem_map.mp hx
    intro hmem
    have := natRepr_digits hmem
    revert this
    decide
  have hnums : (pages.map natRepr).map parseNatStr = pages := by
    rw [List.map_map]
    have hcomp : (parseNatStr ∘ natRepr) = id := funext (fun n => parseNatStr_natRepr n)
    rw [hcomp, List.map_id]
  unfold parseCitation
  rw [hlines]
  simp only [List.filter_cons, List.filter_nil]
  rw [if_pos hcS, if_pos hcT]
  simp only [List.map_cons, List.map_nil]
  rw [hkvS, hkvT]
  rw [dictGet_two_source, dictGet_two_title]
  simp only [hsv, hpv, hnums]

theorem sumTokens_reverse (ch : List SItem) : sumTokens ch.reverse = sumTokens ch := by
  simp [sumTokens, List.map_reverse, List.sum_reverse]

theorem sumTokens_append (a b : List SItem) :
    sumTokens (a ++ b) = sumTokens a + sumTokens b := by
  simp [sumTokens]

theorem chunkOk_single (budget : Nat) (it : SItem) : chunkOk budget [it] := by
  rcases le_or_lt it.tokens budget with h | h
  · exact Or.inl (by simpa [sumTokens] using h)
  · exact Or.inr ⟨it, rfl, h⟩

theorem packItemsGo_nil (budget : Nat) (curPath : List Str) (cur : List SItem) :
    packItemsGo budget curPath cur [] = [cur.reverse] := rfl

theorem packItemsGo_cons (budget : Nat) (curPath : List Str) (cur : List SItem)
    (it : SItem) (rest : List SItem) :
    packItemsGo budget curPath cur (it :: rest) =
      if it.headingPath = curPath ∧ sumTokens cur + it.tokens ≤ budget then
        packItemsGo budget curPath (it :: cur) rest
      else cur.reverse :: packItemsGo budget it.headingPath [it] rest := rfl

theorem packItemsGo_ok (budget : Nat) :
    ∀ rest curPath cur, chunkOk budget cur.reverse →
      ∀ ch ∈ packItemsGo budget curPath cur rest, chunkOk budget ch := by
  intro rest
  induction rest with
  | nil =>
    intro curPath cur hcur ch hch
    rw [packItemsGo_nil] at hch
    simp only [List.mem_singleton] at hch
    subst hch
    exact hcur
  | cons it rest2 ih =>
    intro curPath cur hcur ch hch
    rw [packItemsGo_cons] at hch
    by_cases hcnd : it.headingPath = curPath ∧ sumTokens cur + it.tokens ≤ budget
    · rw [if_pos hcnd] at hch
      refine ih curPath (it :: cur) (Or.inl ?_) ch hch
      rw [sumTokens_reverse]
      simp only [sumTokens, List.map_cons, List.sum_cons]
      have := hcnd.2
      simp only [sumTokens] at this
      omega
    · rw [if_neg hcnd] at hch
      rcases List.mem_cons.mp hch with h1 | h2
      · subst h1; exact hcur
      · exact ih it.headingPath [it] (by simpa using chunkOk_single budget it) ch h2

theorem mergePeersGo_nil (budget : Nat) (cur : List SItem) :
    mergePeersGo budget cur [] = [cur] := rfl

theorem mergePeersGo_cons (budget : Nat) (cur c : List SItem) (rest : List (List SItem)) :
    mergePeersGo budget cur (c :: rest) =
      if sumTokens cur + sumTokens c ≤ budget then mergePeersGo budget (cur ++ c) rest
      else cur :: mergePeersGo budget c rest := rfl

theorem mergePeersGo_ok (budget : Nat) :
    ∀ pending cur, chunkOk budget cur → (∀ c ∈ pending, chunkOk budget c) →
      ∀ ch ∈ mergePeersGo budget cur pending, chunkOk budget ch := by
  intro pending
  induction pending with
  | nil =>
    intro cur hcur _ ch hch
    rw [mergePeersGo_nil] at hch
    simp only [List.mem_singleton] at hch
    subst hch
    exact hcur
  | cons c rest ih =>
    intro cur hcur hall ch hch
    rw [mergePeersGo_cons] at hch
    by_cases hcnd : sumTokens cur + sumTokens c ≤ budget
    · rw [if_pos hcnd] at hch
      exact ih (cur ++ c) (Or.inl (by rw [sumTokens_append]; exact hcnd))
        (fun d hd => hall d (List.mem_cons_of_mem _ hd)) ch hch
    · rw [if_neg hcnd] at hch
      rcases List.mem_cons.mp hch with h1 | h2
      · subst h1; exact hcur
      · exact ih c (hall c (by simp)) (fun d hd => hall d (List.mem_cons_of_mem _ hd)) ch h2

/-- C1: every chunk produced by the chunking operation has token count at most
MAX_TOKENS = 8191, except that a chunk consisting of a single atomic content
item whose own token count exceeds the budget is accepted oversize rather than
split below item granularity. -/
theorem c1_token_budget (items : List SItem) (ch : List SItem)
    (h : ch ∈ hybridChunk MAX_TOKENS items) :
    sumTokens ch ≤ MAX_TOKENS ∨ ∃ it, ch = [it] ∧ MAX_TOKENS < it.tokens := by
  unfold hybridChunk at h
  have hpack : ∀ d ∈ packItems MAX_TOKENS items, chunkOk MAX_TOKENS d := by
    cases items with
    | nil => intro d hd; simp [packItems] at hd
    | cons it rest =>
      intro d hd
      exact packItemsGo_ok MAX_TOKENS rest it.headingPath [it]
        (by simpa using chunkOk_single MAX_TOKENS it) d hd
  have hok : chunkOk MAX_TOKENS ch := by
    cases hcs : packItems MAX_TOKENS items with
    | nil => rw [hcs] at h; simp [mergePeers] at h
    | cons c rest =>
      rw [hcs] at h
      exact mergePeersGo_ok MAX_TOKENS rest c (hpack c (by rw [hcs]; simp))
        (fun d hd => hpack d (by rw [hcs]; exact List.mem_cons_of_mem _ hd)) ch h
  exact hok

/-- C1 witness: a single item of 9000 tokens yields one oversize singleton
chunk, accepted by the token-budget invariant. -/
theorem c1_token_budget_witness :
    sumTokens [{ headingPath := [("H").data], tokens := 9000 }] ≤ MAX_TOKENS ∨
      ∃ it, [({ headingPath := [("H").data], tokens := 9000 } : SItem)] = [it] ∧
        MAX_TOKENS < it.tokens :=
  c1_token_budget [{ headingPath := [("H").data], tokens := 9000 }]
    [{ headingPath := [("H").data], tokens := 9000 }] (by decide)

theorem sourceParts_split (fn : Option Str) (pn : Option (List Nat)) (ti : Option Str) :
    sourceParts { filename := fn, page_numbers := pn, title := ti } =
      (match fn with
       | some s => if s.isEmpty then [] else [s]
       | none => []) ++
      (match pn with
       | some ps =>
         if ps.isEmpty then []
         else [("p. ").data ++ joinSep ((", ").data) (ps.map natRepr)]
       | none => []) := by
  unfold sourceParts
  congr 1
  · cases fn with
    | none => simp [truthyStr]
    | some s =>
      by_cases hs : s.isEmpty <;> simp [truthyStr, optStr, hs]
  · cases pn with
    | none => rfl
    | some ps =>
      by_cases hps : ps.isEmpty
      · have : ps = [] := List.isEmpty_iff.mp hps
        subst this
        simp [pagesJoined]
      · have : ps ≠ [] := fun h => hps (by simp [h])
        simp [pagesJoined, hps, List.length_pos.mpr this]

theorem titleTail_split (ti : Option Str) :
    (if truthyStr ti then '\n' :: (("Title: ").data ++ optStr ti) else []) =
      (match ti with
       | some s => if s.isEmpty then [] else ('\n' :: ("Title: ").data) ++ s
       | none => []) := by
  cases ti with
  | none => simp [truthyStr]
  | some s => by_cases hs : s.isEmpty <;> simp [truthyStr, optStr, hs]

/-- C2 counterexample: for a search result whose filename, page_numbers and
title are all null, the code still renders a Source line (the context is
`"T\nSource: "`), while the claim says the Source line is omitted (the claimed
rendering is `"T"`); so the assembled context differs from the claimed one. -/
theorem c2_source_line_not_omitted :
    getContext
        [{ text := ("T").data,
           metadata := { filename := none, page_numbers := none, title := none } }] ≠
      assembleClaim
        [{ text := ("T").data,
           metadata := { filename := none, page_numbers := none, title := none } }] := by
  decide

/-- C2 (amended): each result renders as its text followed by an always
present Source line — `Source: ` plus the " - "-joined available parts
(filename when non-empty, `p. <comma-joined pages>` when non-empty) — and a
Title line only when title is non-null/non-empty; renderings are joined with
a blank-line separator in the order of the input results. -/
theorem c2_context_assembly_amended (rows : List IndexRecord) :
    getContext rows = assembleAmended rows := by
  unfold getContext assembleAmended
  congr 1
  apply List.map_congr_left
  intro r _
  obtain ⟨text, fn, pn, ti⟩ := r
  show text ++ sourceFor { filename := fn, page_numbers := pn, title := ti } = _
  unfold renderRowAmended sourceFor citationBlock
  rw [sourceParts_split, titleTail_split]
  simp [List.append_assoc]

/-- C4: after a full index build, the number of rows in the vector store table
equals the number of non-empty chunks submitted — the batch insertion loop
inserts every processed chunk exactly once into the freshly overwritten
table. -/
theorem c4_row_count (files : List RawFile) :
    rowCount (buildIndex (chunkMarkdownFiles files).1) =
      ((files.flatMap RawFile.chunks).filter
        (fun c => !(pyStrip c.serialized).isEmpty)).length := by
  unfold rowCount buildIndex
  rw [insertLoopF_adequate _ _ _ (by rw [List.length_map]; exact Nat.lt_succ_self _)]
  rw [List.nil_append, List.length_map]
  exact flatMap_keptChunks_length files

/-- C5: metadata derivation is a pure function of the chunk (hence
deterministic and idempotent); the derived title is the first heading, or null
when there are none, and the derived page_numbers is exactly the strictly
sorted (hence deduplicated) enumeration of the pages occurring in the chunk's
doc_items' provenance records, with `none` when there are no pages. -/
theorem c5_derive_metadata (c : Chunk) :
    deriveMetadata c = deriveMetadata c ∧
    (deriveMetadata c).title = c.meta.headings.head? ∧
    (match (deriveMetadata c).page_numbers with
     | none => pagesUnion c = []
     | some l => l.Sorted (fun a b => a < b) ∧ ∀ p, (p ∈ l ↔ p ∈ pagesUnion c)) := by
  refine ⟨rfl, rfl, ?_⟩
  have hpn : (deriveMetadata c).page_numbers =
      if (List.insertionSort (fun a b => a ≤ b) (pagesUnion c).dedup).isEmpty then none
      else some (List.insertionSort (fun a b => a ≤ b) (pagesUnion c).dedup) := rfl
  rw [hpn]
  by_cases hps : (List.insertionSort (fun a b => a ≤ b) (pagesUnion c).dedup).isEmpty
  · rw [if_pos hps]
    show pagesUnion c = []
    have h1 : List.insertionSort (fun a b => a ≤ b) (pagesUnion c).dedup = [] :=
      List.isEmpty_iff.mp hps
    have hperm := List.perm_insertionSort (fun a b => a ≤ b) (pagesUnion c).dedup
    rw [h1] at hperm
    exact (List.dedup_eq_nil _).mp hperm.nil_eq.symm
  · rw [if_neg hps]
    show (List.insertionSort (fun a b => a ≤ b) (pagesUnion c).dedup).Sorted
        (fun a b => a < b) ∧ ∀ p,
          (p ∈ List.insertionSort (fun a b => a ≤ b) (pagesUnion c).dedup ↔
            p ∈ pagesUnion c)
    constructor
    · have hsorted := List.sorted_insertionSort (fun a b => a ≤ b) (pagesUnion c).dedup
      have hnodup : (List.insertionSort (fun a b => a ≤ b) (pagesUnion c).dedup).Nodup :=
        ((List.perm_insertionSort _ _).nodup_iff).mpr (List.nodup_dedup _)
      exact List.Sorted.lt_of_le hsorted hnodup
    · intro p
      rw [(List.perm_insertionSort (fun a b => a ≤ b) (pagesUnion c).dedup).mem_iff]
      exact List.mem_dedup

/-- C5 witness: derivation evaluated on a concrete chunk with duplicated,
unsorted provenance pages. -/
theorem c5_derive_metadata_witness :
    deriveMetadata (⟨("x").data, ("x").data, ⟨⟨some ("d.pdf").data⟩, [⟨[⟨2⟩, ⟨1⟩]⟩, ⟨[⟨1⟩]⟩], [("H").data]⟩⟩ : Chunk) =
      deriveMetadata (⟨("x").data, ("x").data, ⟨⟨some ("d.pdf").data⟩, [⟨[⟨2⟩, ⟨1⟩]⟩, ⟨[⟨1⟩]⟩], [("H").data]⟩⟩ : Chunk) ∧
    (deriveMetadata (⟨("x").data, ("x").data, ⟨⟨some ("d.pdf").data⟩, [⟨[⟨2⟩, ⟨1⟩]⟩, ⟨[⟨1⟩]⟩], [("H").data]⟩⟩ : Chunk)).title =
      (⟨("x").data, ("x").data, ⟨⟨some ("d.pdf").data⟩, [⟨[⟨2⟩, ⟨1⟩]⟩, ⟨[⟨1⟩]⟩], [("H").data]⟩⟩ : Chunk).meta.headings.head? ∧
    (match (deriveMetadata (⟨("x").data, ("x").data, ⟨⟨some ("d.pdf").data⟩, [⟨[⟨2⟩, ⟨1⟩]⟩, ⟨[⟨1⟩]⟩], [("H").data]⟩⟩ : Chunk)).page_numbers with
     | none => pagesUnion (⟨("x").data, ("x").data, ⟨⟨some ("d.pdf").data⟩, [⟨[⟨2⟩, ⟨1⟩]⟩, ⟨[⟨1⟩]⟩], [("H").data]⟩⟩ : Chunk) = []
     | some l => l.Sorted (fun a b => a < b) ∧ ∀ p,
        (p ∈ l ↔ p ∈ pagesUnion (⟨("x").data, ("x").data, ⟨⟨some ("d.pdf").data⟩, [⟨[⟨2⟩, ⟨1⟩]⟩, ⟨[⟨1⟩]⟩], [("H").data]⟩⟩ : Chunk))) :=
  c5_derive_metadata ⟨("x").data, ("x").data, ⟨⟨some ("d.pdf").data⟩, [⟨[⟨2⟩, ⟨1⟩]⟩, ⟨[⟨1⟩]⟩], [("H").data]⟩⟩

/-- C6: searching an index with zero rows returns the empty sequence (never an
error), assembling context from zero results yields the empty string (never an
error), and the turn still proceeds to answer generation with that empty
context and completes by appending the assistant message. -/
theorem c6_empty_index_safety (query : Str) (k : Nat) (history : List Msg)
    (prompt : Str) (complete : List Msg → Except Str Str) :
    tableSearch [] query k = [] ∧
    getContext (tableSearch [] query k) = [] ∧
    chatTurn history prompt [] complete =
      history ++ [{ role := Role.user, content := prompt },
        { role := Role.assistant,
          content := getChatResponse
            (history ++ [{ role := Role.user, content := prompt }]) [] complete }] := by
  have h1 : tableSearch [] query k = [] := List.take_nil
  refine ⟨h1, by rw [h1]; rfl, ?_⟩
  unfold chatTurn
  rw [List.append_assoc]
  rfl

/-- C7: when the completion call raises, the exception is caught inside
get_chat_response and the apology string is recorded as the assistant message;
the history still contains the user message of that turn. -/
theorem c7_generation_failure (history : List Msg) (prompt : Str)
    (rows : List IndexRecord) (err : Str) :
    chatTurn history prompt rows (fun _ => Except.error err) =
      history ++ [{ role := Role.user, content := prompt },
        { role := Role.assistant, content := apologyText }] ∧
    { role := Role.user, content := prompt } ∈
      chatTurn history prompt rows (fun _ => Except.error err) := by
  have h1 : chatTurn history prompt rows (fun _ => Except.error err) =
      history ++ [{ role := Role.user, content := prompt },
        { role := Role.assistant, content := apologyText }] := by
    unfold chatTurn getChatResponse
    simp
  exact ⟨h1, by rw [h1]; simp⟩

theorem fileWarnings_eq (files : List RawFile) :
    files.flatMap fileWarnings =
      (files.filter (fun f => 0 < droppedCount f)).map
        (fun f => (f.name, droppedCount f)) := by
  induction files with
  | nil => rfl
  | cons f rest ih =>
    simp only [List.flatMap_cons, List.filter_cons]
    by_cases hf : 0 < droppedCount f
    · simp [fileWarnings, hf, ih]
    · simp [fileWarnings, hf, ih]

/-- C8: every chunk whose serialized text is empty or whitespace-only is
dropped from the chunking output (every returned chunk strips to something
non-empty), and dropping is reported as one warning per file carrying the
count of dropped chunks of that file (at most one warning per file, never one
per dropped chunk). -/
theorem c8_empty_chunks_dropped (files : List RawFile) :
    (∀ c ∈ (chunkMarkdownFiles files).1, pyStrip c.serialized ≠ []) ∧
    (chunkMarkdownFiles files).2 =
      (files.filter (fun f => 0 < droppedCount f)).map
        (fun f => (f.name, droppedCount f)) ∧
    ((chunkMarkdownFiles files).2).length ≤ files.length := by
  refine ⟨?_, fileWarnings_eq files, ?_⟩
  · intro c hc
    simp only [chunkMarkdownFiles, List.mem_flatMap] at hc
    obtain ⟨f, _, hcf⟩ := hc
    have hmem := List.of_mem_filter hcf
    simp only [Bool.not_eq_eq_eq_not, Bool.not_true] at hmem
    intro hnil
    simp [List.isEmpty_iff, hnil] at hmem
  · show (files.flatMap fileWarnings).length ≤ files.length
    rw [fileWarnings_eq files, List.length_map]
    exact List.length_filter_le _ _

/-- C8 witness: one file with one whitespace-only chunk and one real chunk —
the real chunk is kept, one warning with count 1 is emitted. -/
theorem c8_empty_chunks_dropped_witness :
    (∀ c ∈ (chunkMarkdownFiles
        [⟨("f.json").data, [⟨("hi").data, ("hi").data, ⟨⟨none⟩, [], []⟩⟩,
          ⟨[], ("  ").data, ⟨⟨none⟩, [], []⟩⟩]⟩]).1, pyStrip c.serialized ≠ []) ∧
    (chunkMarkdownFiles
        [⟨("f.json").data, [⟨("hi").data, ("hi").data, ⟨⟨none⟩, [], []⟩⟩,
          ⟨[], ("  ").data, ⟨⟨none⟩, [], []⟩⟩]⟩]).2 =
      ([⟨("f.json").data, [⟨("hi").data, ("hi").data, ⟨⟨none⟩, [], []⟩⟩,
          ⟨[], ("  ").data, ⟨⟨none⟩, [], []⟩⟩]⟩].filter
        (fun f => 0 < droppedCount f)).map (fun f => (f.name, droppedCount f)) ∧
    ((chunkMarkdownFiles
        [⟨("f.json").data, [⟨("hi").data, ("hi").data, ⟨⟨none⟩, [], []⟩⟩,
          ⟨[], ("  ").data, ⟨⟨none⟩, [], []⟩⟩]⟩]).2).length ≤
      ([⟨("f.json").data, [⟨("hi").data, ("hi").data, ⟨⟨none⟩, [], []⟩⟩,
          ⟨[], ("  ").data, ⟨⟨none⟩, [], []⟩⟩]⟩] : List RawFile).length :=
  c8_empty_chunks_dropped
    [⟨("f.json").data, [⟨("hi").data, ("hi").data, ⟨⟨none⟩, [], []⟩⟩,
      ⟨[], ("  ").data, ⟨⟨none⟩, [], []⟩⟩]⟩]

theorem alternating_append_pair (h : List Msg) (p r : Str) (hh : Alternating h) :
    Alternating (h ++ [{ role := Role.user, content := p },
      { role := Role.assistant, content := r }]) := by
  induction hh with
  | nil => exact Alternating.pair p r [] Alternating.nil
  | pair p2 r2 rest hrest ih => exact Alternating.pair p2 r2 _ ih

theorem alternating_even (l : List Msg) (h : Alternating l) : l.length % 2 = 0 := by
  induction h with
  | nil => rfl
  | pair p r rest hrest ih =>
    simp only [List.length_cons]
    omega

/-- C9: a completed user turn appends exactly two messages — the user message
followed by the assistant message — so a history that alternates roles
starting with user (hence has even length) still does after the turn, with
length grown by exactly two; this includes the failing-generation case, since
get_chat_response always returns a string (the apology on error). -/
theorem c9_turn_appends_pair (history : List Msg) (prompt : Str)
    (rows : List IndexRecord) (complete : List Msg → Except Str Str)
    (h : Alternating history) :
    chatTurn history prompt rows complete =
      history ++ [{ role := Role.user, content := prompt },
        { role := Role.assistant,
          content := getChatResponse
            (history ++ [{ role := Role.user, content := prompt }])
            (getContext (tableSearch rows prompt 10)) complete }] ∧
    (chatTurn history prompt rows complete).length = history.length + 2 ∧
    (chatTurn history prompt rows complete).length % 2 = 0 ∧
    Alternating (chatTurn history prompt rows complete) := by
  have h1 : chatTurn history prompt rows complete =
      history ++ [{ role := Role.user, content := prompt },
        { role := Role.assistant,
          content := getChatResponse
            (history ++ [{ role := Role.user, content := prompt }])
            (getContext (tableSearch rows prompt 10)) complete }] := by
    unfold chatTurn
    rw [List.append_assoc]
    rfl
  refine ⟨h1, ?_, ?_, ?_⟩
  · rw [h1]; simp
  · rw [h1]
    have he := alternating_even history h
    simp only [List.length_append, List.length_cons, List.length_nil]
    omega
  · rw [h1]
    exact alternating_append_pair history prompt _ h

/-- C9 witness: an empty history and a failing generator — the turn appends
the user message and the apology, keeping the alternation. -/
theorem c9_turn_appends_pair_witness :
    chatTurn [] ("q").data [] (fun _ => Except.error ("e").data) =
      [] ++ [{ role := Role.user, content := ("q").data },
        { role := Role.assistant,
          content := getChatResponse
            ([] ++ [{ role := Role.user, content := ("q").data }])
            (getContext (tableSearch [] (("q").data) 10))
            (fun _ => Except.error ("e").data) }] ∧
    (chatTurn [] ("q").data [] (fun _ => Except.error ("e").data)).length =
      ([] : List Msg).length + 2 ∧
    (chatTurn [] ("q").data [] (fun _ => Except.error ("e").data)).length % 2 = 0 ∧
    Alternating (chatTurn [] ("q").data [] (fun _ => Except.error ("e").data)) :=
  c9_turn_appends_pair [] (("q").data) [] (fun _ => Except.error ("e").data)
    Alternating.nil

/-- C10: a stored record's page_numbers is never the empty list — when the
chunk's doc_items contribute no provenance pages, it is stored as null. -/
theorem c10_page_numbers_not_empty_list (c : Chunk) :
    (deriveMetadata c).page_numbers ≠ some [] ∧
    (pagesUnion c = [] → (deriveMetadata c).page_numbers = none) := by
  have hpn : (deriveMetadata c).page_numbers =
      if (List.insertionSort (fun a b => a ≤ b) (pagesUnion c).dedup).isEmpty then none
      else some (List.insertionSort (fun a b => a ≤ b) (pagesUnion c).dedup) := rfl
  constructor
  · rw [hpn]
    by_cases hps : (List.insertionSort (fun a b => a ≤ b) (pagesUnion c).dedup).isEmpty
    · rw [if_pos hps]; simp
    · rw [if_neg hps]
      intro hcontra
      have hnil : List.insertionSort (fun a b => a ≤ b) (pagesUnion c).dedup = [] :=
        Option.some.inj hcontra
      exact hps (by rw [hnil]; rfl)
  · intro hu
    rw [hpn]
    rw [hu]
    rfl

/-- C10 witness: a chunk with no provenance records stores null, not []. -/
theorem c10_page_numbers_not_empty_list_witness :
    (deriveMetadata (⟨("x").data, ("x").data, ⟨⟨none⟩, [⟨[]⟩], []⟩⟩ : Chunk)).page_numbers ≠
        some [] ∧
    (pagesUnion (⟨("x").data, ("x").data, ⟨⟨none⟩, [⟨[]⟩], []⟩⟩ : Chunk) = [] →
      (deriveMetadata (⟨("x").data, ("x").data, ⟨⟨none⟩, [⟨[]⟩], []⟩⟩ : Chunk)).page_numbers =
        none) :=
  c10_page_numbers_not_empty_list ⟨("x").data, ("x").data, ⟨⟨none⟩, [⟨[]⟩], []⟩⟩

/-- C3 counterexample: for metadata with filename "a", pages [1] and title
"X: Y" (a title containing the key/value delimiter ": "), the re-parse
truncates the title to "X", so parse(render(metadata)) differs from the
original metadata and the round trip fails as stated. -/
theorem c3_round_trip_fails_on_colon_title :
    parseCitation
        (citationBlock (⟨some ("a").data, some [1], some ("X: Y").data⟩ : ChunkMetadata)) ≠
      some (⟨some ("a").data, some [1], some ("X: Y").data⟩ : ChunkMetadata) := by
  decide

/-- C3 witness: the round trip holds at a concrete delimiter-free metadata
value. -/
theorem c3_citation_round_trip_witness :
    parseCitation
        (citationBlock
          (⟨some ("GDPR.pdf").data, some [1, 2], some ("Principles").data⟩ : ChunkMetadata)) =
      some (⟨some ("GDPR.pdf").data, some [1, 2], some ("Principles").data⟩ : ChunkMetadata) :=
  c3_citation_round_trip (("GDPR.pdf").data) (("Principles").data) [1, 2]
    (by decide) (by decide) (by decide) (by decide)
    (by decide) (by decide) (by decide) (by decide)
